import Mathlib

/-!
# Verification of the Mediterranean extreme-precipitation analysis notebooks

A shallow embedding, in Lean 4, of the data-analysis functions of the
repository `med-extreme-prec-atm-patterns` (research notebooks analysing
ERA5 / E-OBS precipitation and large-scale atmospheric patterns), together
with theorems settling the specification claims about them.

Modelling conventions:
* A Python float cell value is modelled by `PVal := Option ℚ`; `none` models
  `NaN` (missing value).  NaN order comparisons (`<`, `>`, `<=`) are false
  in Python, which the `pyLe / pyLt / pyGt` functions reproduce.
* A grid cell's time series is a `List PVal`; dates are identified with the
  positions `0, 1, 2, …` of the time axis.
* Fallible Python code (code that can raise) is modelled with `Option`:
  a `none` result models an uncaught exception.
* `pandas.Series.map(dict)` resolves values through pandas' index hash
  tables, which treat all NaNs as equal (and a dict lookup of the same NaN
  object succeeds by identity), so the key-matching equality `pyKeyEq`
  identifies all NaNs; a NaN datum is therefore mapped to the state number
  of the NaN key.  Object-identity effects (several distinct NaN objects
  in one array, which make the mapper index non-unique) are outside this
  value-level model.
-/

/-- A Python numeric value as stored in a float array: `none` models `NaN`. -/
abbrev PVal := Option ℚ

/-- The key equality of the source's `set` / `dict_sequencial` /
`pd.Series.map` machinery: ordinary value equality with all NaNs
identified — pandas float hash tables deem two NaNs equal, and a dict
lookup of the same NaN object succeeds by identity. -/
def pyKeyEq : PVal → PVal → Bool
  | some a, some b => a == b
  | none, none => true
  | _, _ => false

/-- Python `<=` on float values: any comparison with `NaN` is `False`. -/
def pyLe : PVal → PVal → Bool
  | some a, some b => a ≤ b
  | _, _ => false

/-- Python `<` on float values: any comparison with `NaN` is `False`. -/
def pyLt : PVal → PVal → Bool
  | some a, some b => a < b
  | _, _ => false

/-- Python `>` on float values: any comparison with `NaN` is `False`.
This is the comparison used by `dataset_df > Q_thres` in `dates_extreme`
and by `EOBS > Quant` in the `Exceed_xr` construction. -/
def pyGt : PVal → PVal → Bool
  | some a, some b => b < a
  | _, _ => false

/-- `set(data_used)`: keep one representative of every key-equality class
(in particular a single NaN representative, matching the hash-table
equality the subsequent `dict` lookup uses). -/
def dedupPy : List PVal → List PVal
  | [] => []
  | x :: xs => x :: (dedupPy xs).filter (fun y => !(pyKeyEq y x))

/-- Insertion step of `sorted`: place `x` before the first element it is
`<=` to.  Comparisons against `NaN` are all false, as in Python's sort. -/
def insertPy (x : PVal) : List PVal → List PVal
  | [] => [x]
  | y :: ys => if pyLe x y then x :: y :: ys else y :: insertPy x ys

/-- Python `sorted`, as insertion sort (a permutation with the ordering
guarantee on NaN-free data, which is all the source relies on). -/
def sortPy : List PVal → List PVal
  | [] => []
  | x :: xs => insertPy x (sortPy xs)

/-- `unique_states = sorted(set(data_used))` from `transition_matrix`. -/
def uniqueStates (data : List PVal) : List PVal :=
  sortPy (dedupPy data)

/-- `pd.Series(data_used).map(dict_sequencial)` for one element: the index
of the (first) state key-equal to `v` — NaN included, since pandas'
lookup matches NaN keys — and `none` (a missing value) when no state
matches.  `dict_sequencial = {val: i for i, val in enumerate(unique_states)}`. -/
def stateIndex (states : List PVal) (v : PVal) : Option Nat :=
  match states with
  | [] => none
  | s :: rest => if pyKeyEq s v then some 0 else (stateIndex rest v).map (· + 1)

/-- `row[j] += 1` on one row of the transition-count matrix. -/
def bumpRow (row : List Nat) (j : Nat) : List Nat :=
  row.set j (row.getD j 0 + 1)

/-- `M[i][j] += 1` on the count matrix. -/
def bumpM (M : List (List Nat)) (i j : Nat) : List (List Nat) :=
  M.set i (bumpRow (M.getD i []) j)

/-- The counting loop
`for (i,j) in zip(transitions_numbered, transitions_numbered[lead:]): M[i][j] += 1`.
Were a pair to hold a value the map left unmatched, the list indexing
would raise `TypeError` (the `none` result); since the map matches every
key, NaN included, this branch is never taken at the value level. -/
def countLoop : List (Option Nat × Option Nat) → List (List Nat) → Option (List (List Nat))
  | [], M => some M
  | (some i, some j) :: rest, M => countLoop rest (bumpM M i j)
  | _ :: _, _ => none

/-- Row normalisation of `transition_matrix`:
`s = sum(row); if s > 0: row[:] = [f/s for f in row]`. -/
def normalizeRow (row : List Nat) : List ℚ :=
  if 0 < row.sum then row.map (fun f => (Nat.cast f : ℚ) / (Nat.cast row.sum : ℚ))
  else row.map (fun f => (Nat.cast f : ℚ))

/-- The result of `transition_matrix`: a `pd.DataFrame` whose rows and columns
are labelled by the sorted unique states. -/
structure TMatrix where
  states : List PVal
  rows : List (List ℚ)
deriving DecidableEq

/-- `transition_matrix(data, lead)` of the notebook: number the data by the
sorted unique states, count the `lead`-step transitions, and normalise
each row to probabilities.  `none` models the routine raising. -/
def transition_matrix (data : List PVal) (lead : Nat) : Option TMatrix :=
  let states := uniqueStates data
  let tn := data.map (stateIndex states)
  let n := states.length
  match countLoop (tn.zip (tn.drop lead)) (List.replicate n (List.replicate n 0)) with
  | none => none
  | some M => some ⟨states, M.map normalizeRow⟩

/-- Number of positions `t` with `data[t] = a` and `data[t+lead] = b`
(the transition count the claims speak about). -/
def transCount (data : List PVal) (lead : Nat) (a b : PVal) : Nat :=
  ((List.range (data.length - lead)).filter
    (fun t => decide (data.getD t none = a ∧ data.getD (t + lead) none = b))).length

/-- Number of positions `t < data.length - lead` with `data[t] = a`
(the total number of observed transitions out of state `a`). -/
def outCount (data : List PVal) (lead : Nat) (a : PVal) : Nat :=
  ((List.range (data.length - lead)).filter
    (fun t => decide (data.getD t none = a))).length

/-- Entry `i j` of a list-of-lists matrix. -/
def entryQ (M : List (List ℚ)) (i j : Nat) : ℚ :=
  (M.getD i []).getD j 0

/-! ## Basic properties of the Python value model -/

theorem pyKeyEq_eq_of_true {a b : PVal} (h : pyKeyEq a b = true) : a = b := by
  cases a <;> cases b <;> simp_all [pyKeyEq]

theorem pyKeyEq_refl (a : PVal) : pyKeyEq a a = true := by
  cases a <;> simp [pyKeyEq]

/-! ## `stateIndex` (the `pd.Series.map(dict_sequencial)` model) -/

theorem stateIndex_isSome_of_mem {states : List PVal} {v : PVal}
    (h : v ∈ states) : (stateIndex states v).isSome = true := by
  induction states with
  | nil => simp at h
  | cons s rest ih =>
    rcases List.mem_cons.mp h with h1 | h1
    · subst h1
      simp [stateIndex, pyKeyEq_refl]
    · by_cases hs : pyKeyEq s v = true
      · simp [stateIndex, hs]
      · simp only [stateIndex, hs]
        simp [Option.isSome_map, ih h1]

theorem stateIndex_some {states : List PVal} {v : PVal} {i : Nat}
    (h : stateIndex states v = some i) :
    i < states.length ∧ states.getD i none = v := by
  induction states generalizing i with
  | nil => simp [stateIndex] at h
  | cons s rest ih =>
    by_cases hs : pyKeyEq s v = true
    · rw [stateIndex, if_pos hs] at h
      cases h
      exact ⟨Nat.succ_pos _, pyKeyEq_eq_of_true hs⟩
    · rw [stateIndex, if_neg hs] at h
      cases hrest : stateIndex rest v with
      | none => rw [hrest] at h; simp at h
      | some j =>
        rw [hrest] at h
        simp only [Option.map_some', Option.some.injEq] at h
        subst h
        obtain ⟨hlt, hval⟩ := ih hrest
        refine ⟨Nat.succ_lt_succ hlt, ?_⟩
        simpa using hval

/-! ## `set` and `sorted` (dedup and sort) -/

theorem mem_of_mem_dedupPy {l : List PVal} {v : PVal} (h : v ∈ dedupPy l) : v ∈ l := by
  induction l with
  | nil => simp [dedupPy] at h
  | cons x xs ih =>
    simp only [dedupPy, List.mem_cons] at h
    rcases h with h | h
    · simp [h]
    · exact List.mem_cons_of_mem _ (ih (List.mem_of_mem_filter h))

theorem mem_dedupPy_of_mem {l : List PVal} {v : PVal} (h : v ∈ l) :
    v ∈ dedupPy l := by
  induction l with
  | nil => simp at h
  | cons x xs ih =>
    rcases List.mem_cons.mp h with h1 | h1
    · simp [dedupPy, h1]
    · by_cases hx : pyKeyEq v x = true
      · have hxq : x = v := (pyKeyEq_eq_of_true hx).symm
        simp [dedupPy, hxq]
      · have hmem : v ∈ (dedupPy xs).filter (fun y => !(pyKeyEq y x)) :=
          List.mem_filter.mpr ⟨ih h1, by simp [hx]⟩
        simp only [dedupPy, List.mem_cons]
        exact Or.inr hmem

theorem mem_insertPy {x v : PVal} {l : List PVal} :
    v ∈ insertPy x l ↔ v = x ∨ v ∈ l := by
  induction l with
  | nil => simp [insertPy]
  | cons y ys ih =>
    by_cases hle : pyLe x y = true
    · rw [insertPy, if_pos hle]
      simp only [List.mem_cons]
    · rw [insertPy, if_neg hle]
      simp only [List.mem_cons, ih]
      tauto

theorem mem_sortPy {v : PVal} {l : List PVal} : v ∈ sortPy l ↔ v ∈ l := by
  induction l with
  | nil => simp [sortPy]
  | cons x xs ih => simp [sortPy, mem_insertPy, ih]

theorem mem_uniqueStates_of_mem {data : List PVal} {v : PVal} (h : v ∈ data) :
    v ∈ uniqueStates data :=
  mem_sortPy.mpr (mem_dedupPy_of_mem h)

theorem mem_of_mem_uniqueStates {data : List PVal} {v : PVal}
    (h : v ∈ uniqueStates data) : v ∈ data :=
  mem_of_mem_dedupPy (mem_sortPy.mp h)

/-! ## The counting loop -/

theorem countLoop_isSome_of_good {ps : List (Option Nat × Option Nat)}
    (h : ∀ p ∈ ps, p.1.isSome = true ∧ p.2.isSome = true) :
    ∀ M, (countLoop ps M).isSome = true := by
  induction ps with
  | nil => intro M; rfl
  | cons q rest ih =>
    intro M
    rcases q with ⟨a, b⟩
    obtain ⟨ha, hb⟩ := h (a, b) (List.mem_cons_self _ _)
    cases a with
    | none => simp at ha
    | some i =>
      cases b with
      | none => simp at hb
      | some j =>
        show (countLoop rest (bumpM M i j)).isSome = true
        exact ih (fun p hp => h p (List.mem_cons_of_mem _ hp)) _

/-- `transition_matrix` unfolded to an `Option.map` over the counting loop. -/
theorem transition_matrix_eq (data : List PVal) (lead : Nat) :
    transition_matrix data lead =
      (countLoop ((data.map (stateIndex (uniqueStates data))).zip
          ((data.map (stateIndex (uniqueStates data))).drop lead))
        (List.replicate (uniqueStates data).length
          (List.replicate (uniqueStates data).length 0))).map
        (fun M => ⟨uniqueStates data, M.map normalizeRow⟩) := by
  cases hc : countLoop ((data.map (stateIndex (uniqueStates data))).zip
      ((data.map (stateIndex (uniqueStates data))).drop lead))
      (List.replicate (uniqueStates data).length
        (List.replicate (uniqueStates data).length 0)) with
  | none => simp [transition_matrix, hc]
  | some M => simp [transition_matrix, hc]

/-- `transition_matrix` returns normally on every input, NaN-containing or
not: every data value — NaN included — is matched by the map to the
number of its (key-equal) state, so the counting loop never sees an
unmatched value. -/
theorem transition_matrix_isSome (data : List PVal) (lead : Nat) :
    (transition_matrix data lead).isSome = true := by
  rw [transition_matrix_eq]
  have hgood : ∀ p ∈ (data.map (stateIndex (uniqueStates data))).zip
      ((data.map (stateIndex (uniqueStates data))).drop lead),
      p.1.isSome = true ∧ p.2.isSome = true := by
    intro p hp
    rcases p with ⟨a, b⟩
    obtain ⟨ha, hb⟩ := List.of_mem_zip hp
    have hb2 : b ∈ data.map (stateIndex (uniqueStates data)) :=
      List.mem_of_mem_drop hb
    have key : ∀ v ∈ data.map (stateIndex (uniqueStates data)),
        v.isSome = true := by
      intro v hv
      obtain ⟨w, hw, hwv⟩ := List.mem_map.mp hv
      subst hwv
      exact stateIndex_isSome_of_mem (mem_uniqueStates_of_mem hw)
    exact ⟨key a ha, key b hb2⟩
  have hs := countLoop_isSome_of_good hgood
    (List.replicate (uniqueStates data).length
      (List.replicate (uniqueStates data).length 0))
  cases hc : countLoop ((data.map (stateIndex (uniqueStates data))).zip
      ((data.map (stateIndex (uniqueStates data))).drop lead))
      (List.replicate (uniqueStates data).length
        (List.replicate (uniqueStates data).length 0)) with
  | none => rw [hc] at hs; simp at hs
  | some M => rfl

/-- C1 counterexample: the input `[1.0, NaN]` contains a NaN, yet
`transition_matrix` returns a 2 x 2 matrix — pandas' map matches the NaN
key, numbering NaN as a state of its own — instead of raising. -/
theorem claim_C1_counterexample :
    (transition_matrix [some 1, none] 1).isSome = true := by
  rfl

/-- C1 (amended): the routine does not in fact fail on missing values at
the value level: for every input vector and lead — NaN-containing or not —
`transition_matrix` returns a matrix, because `pd.Series.map` matches NaN
keys and numbers NaN as its own state; in particular every NaN-free input
returns normally, as the claim's second half states.  (A raise can occur
only through object-identity effects — several distinct NaN objects making
the mapper index non-unique — which are outside a value-level model.) -/
theorem claim_C1 (data : List PVal) (lead : Nat) :
    (transition_matrix data lead).isSome = true :=
  transition_matrix_isSome data lead

/-! ## Matrix bookkeeping for the counting loop -/

/-- Entry `i j` of the integer count matrix. -/
def entryN (M : List (List Nat)) (i j : Nat) : Nat :=
  (M.getD i []).getD j 0

/-- The count matrix is `n x n`. -/
def MShape (M : List (List Nat)) (n : Nat) : Prop :=
  M.length = n ∧ ∀ r ∈ M, r.length = n

theorem getD_set_self {α : Type _} (l : List α) (i : Nat) (x d : α)
    (h : i < l.length) : (l.set i x).getD i d = x := by
  rw [List.getD_eq_getElem _ _ (by simpa using h), List.getElem_set]
  simp

theorem getD_set_ne {α : Type _} (l : List α) {i j : Nat} (x d : α)
    (h : i ≠ j) : (l.set i x).getD j d = l.getD j d := by
  by_cases hj : j < l.length
  · rw [List.getD_eq_getElem _ _ (by simpa using hj), List.getElem_set,
      List.getD_eq_getElem _ _ hj, if_neg h]
  · rw [List.getD_eq_default _ _ (by simpa using Nat.le_of_not_lt hj),
      List.getD_eq_default _ _ (Nat.le_of_not_lt hj)]

theorem shape_replicate (n : Nat) :
    MShape (List.replicate n (List.replicate n 0)) n := by
  constructor
  · simp
  · intro r hr
    simp [List.eq_of_mem_replicate hr]

theorem shape_bumpM {M : List (List Nat)} {n : Nat} (h : MShape M n) (i j : Nat) :
    MShape (bumpM M i j) n := by
  obtain ⟨h1, h2⟩ := h
  refine ⟨by simp [bumpM, h1], ?_⟩
  intro r hr
  by_cases hi : i < M.length
  · rcases List.mem_or_eq_of_mem_set hr with h3 | h3
    · exact h2 r h3
    · subst h3
      rw [bumpRow, List.length_set, List.getD_eq_getElem _ _ hi]
      exact h2 _ (List.getElem_mem hi)
  · rw [bumpM, List.set_eq_of_length_le (Nat.le_of_not_lt hi)] at hr
    exact h2 r hr

theorem entryN_bumpM {M : List (List Nat)} {n : Nat} (h : MShape M n)
    {a b : Nat} (ha : a < n) (hb : b < n) (i j : Nat) :
    entryN (bumpM M a b) i j =
      entryN M i j + (if a = i ∧ b = j then 1 else 0) := by
  obtain ⟨h1, h2⟩ := h
  have haM : a < M.length := by omega
  have hrowlen : (M.getD a []).length = n := by
    rw [List.getD_eq_getElem _ _ haM]
    exact h2 _ (List.getElem_mem haM)
  by_cases hai : a = i
  · subst hai
    rw [entryN, bumpM, getD_set_self _ _ _ _ haM, bumpRow]
    by_cases hbj : b = j
    · subst hbj
      rw [getD_set_self _ _ _ _ (by omega), entryN, if_pos ⟨rfl, rfl⟩]
    · rw [getD_set_ne _ _ _ hbj, entryN, if_neg (by tauto)]
      simp
  · rw [entryN, bumpM, getD_set_ne _ _ _ hai, entryN, if_neg (by tauto)]
    simp

/-- The functional form of the counting loop on successfully-numbered data. -/
def foldCount (ps : List (Nat × Nat)) (M : List (List Nat)) : List (List Nat) :=
  ps.foldl (fun A p => bumpM A p.1 p.2) M

theorem countLoop_map_some (ps : List (Nat × Nat)) (M : List (List Nat)) :
    countLoop (ps.map (fun p => (some p.1, some p.2))) M = some (foldCount ps M) := by
  induction ps generalizing M with
  | nil => rfl
  | cons p rest ih =>
    rcases p with ⟨a, b⟩
    show countLoop (rest.map (fun p => (some p.1, some p.2))) (bumpM M a b) = _
    rw [ih]
    rfl

theorem shape_foldCount {ps : List (Nat × Nat)} {M : List (List Nat)} {n : Nat}
    (hM : MShape M n) : MShape (foldCount ps M) n := by
  induction ps generalizing M with
  | nil => exact hM
  | cons p rest ih => exact ih (shape_bumpM hM p.1 p.2)

theorem entryN_foldCount {ps : List (Nat × Nat)} {M : List (List Nat)} {n : Nat}
    (hM : MShape M n) (hps : ∀ p ∈ ps, p.1 < n ∧ p.2 < n) {i j : Nat} :
    entryN (foldCount ps M) i j = entryN M i j + ps.count (i, j) := by
  induction ps generalizing M with
  | nil => simp [foldCount]
  | cons p rest ih =>
    obtain ⟨ha, hb⟩ := hps p (List.mem_cons_self _ _)
    have step : foldCount (p :: rest) M = foldCount rest (bumpM M p.1 p.2) := rfl
    rw [step, ih (shape_bumpM hM p.1 p.2) (fun q hq => hps q (List.mem_cons_of_mem _ hq)),
      entryN_bumpM hM ha hb, List.count_cons]
    have : (p == (i, j)) = decide (p.1 = i ∧ p.2 = j) := by
      rcases p with ⟨a, b⟩
      by_cases h1 : a = i <;> by_cases h2 : b = j <;> simp [h1, h2, Prod.ext_iff]
    rw [this]
    by_cases hc : p.1 = i ∧ p.2 = j
    · simp [hc]
      omega
    · simp [hc]

theorem entryN_replicate (n i j : Nat) :
    entryN (List.replicate n (List.replicate n 0)) i j = 0 := by
  rw [entryN]
  by_cases hi : i < n
  · have h1 : (List.replicate n (List.replicate n (0 : Nat))).getD i [] =
        List.replicate n 0 := by
      rw [List.getD_eq_getElem _ _ (by simpa using hi), List.getElem_replicate]
    rw [h1]
    by_cases hj : j < n
    · rw [List.getD_eq_getElem _ _ (by simpa using hj), List.getElem_replicate]
    · rw [List.getD_eq_default _ _ (by simpa using Nat.le_of_not_lt hj)]
  · rw [List.getD_eq_default (List.replicate n (List.replicate n 0)) []
      (by simpa using Nat.le_of_not_lt hi)]
    simp

/-! ## Counting positions -/

/-- `countP` over a list, re-expressed as a count of positions. -/
theorem countP_eq_range_filter {α : Type _} (l : List α) (p : α → Bool) (d : α) :
    l.countP p = ((List.range l.length).filter (fun t => p (l.getD t d))).length := by
  induction l with
  | nil => simp
  | cons x xs ih =>
    have hmap : ((List.map Nat.succ (List.range xs.length)).filter
        (fun t => p ((x :: xs).getD t d))).length =
        ((List.range xs.length).filter (fun t => p (xs.getD t d))).length := by
      rw [List.filter_map, List.length_map]
      congr 1
    rw [List.countP_cons, List.length_cons, List.range_succ_eq_map, List.filter_cons]
    by_cases hx : p x = true
    · have h0 : p ((x :: xs).getD 0 d) = true := hx
      rw [if_pos h0, List.length_cons, hmap, ih]
      simp [hx]
    · have h0 : ¬ p ((x :: xs).getD 0 d) = true := hx
      rw [if_neg h0, hmap, ih]
      simp [hx]

theorem zip_drop_length {α : Type _} (l : List α) (k : Nat) :
    (l.zip (l.drop k)).length = l.length - k := by
  rw [List.length_zip, List.length_drop]
  omega

theorem zip_drop_getD {α : Type _} (l : List α) (k t : Nat) (d : α)
    (h : t < l.length - k) :
    (l.zip (l.drop k)).getD t (d, d) = (l.getD t d, l.getD (t + k) d) := by
  have hlen : t < (l.zip (l.drop k)).length := by rw [zip_drop_length]; omega
  have h1 : t < l.length := by omega
  have h2 : t + k < l.length := by omega
  rw [List.getD_eq_getElem _ _ hlen, List.getElem_zip, List.getElem_drop,
    List.getD_eq_getElem l d h1, List.getD_eq_getElem l d h2]
  have hkt : k + t = t + k := Nat.add_comm k t
  simp [hkt]

/-- `countP` over the zipped transition pairs, as a count of positions. -/
theorem countP_zip_drop {α : Type _} (l : List α) (k : Nat)
    (p : α × α → Bool) (d : α) :
    (l.zip (l.drop k)).countP p =
      ((List.range (l.length - k)).filter
        (fun t => p (l.getD t d, l.getD (t + k) d))).length := by
  rw [countP_eq_range_filter _ p (d, d), zip_drop_length]
  congr 1
  apply List.filter_congr
  intro t ht
  rw [zip_drop_getD l k t d (List.mem_range.mp ht)]

/-- Sum of boolean indicators over a list is the length of the filter. -/
theorem sum_map_indicator {α : Type _} (l : List α) (c : α → Bool) :
    (l.map (fun j => if c j then 1 else 0)).sum = (l.filter c).length := by
  induction l with
  | nil => rfl
  | cons x xs ih =>
    rw [List.map_cons, List.sum_cons, List.filter_cons, ih]
    by_cases hx : c x = true
    · simp [hx]
      omega
    · simp [hx]

/-- Double counting: summing, over all states `j`, the number of positions
satisfying `P` and pointing to state `j`, gives the number of positions
satisfying `P` — provided each `P`-position points to exactly one state. -/
theorem sum_counts_eq {α β : Type _} (js : List β) (T : List α)
    (P : α → Bool) (Q : β → α → Bool)
    (huniq : ∀ t ∈ T, P t = true → (js.filter (fun j => Q j t)).length = 1) :
    (js.map (fun j => (T.filter (fun t => P t && Q j t)).length)).sum =
      (T.filter P).length := by
  induction T with
  | nil => simp
  | cons t T' ih =>
    have hsplit : ∀ j : β,
        ((t :: T').filter (fun s => P s && Q j s)).length =
          (if P t && Q j t then 1 else 0) +
            (T'.filter (fun s => P s && Q j s)).length := by
      intro j
      rw [List.filter_cons]
      by_cases hc : (P t && Q j t) = true
      · simp [hc]
        omega
      · simp [hc]
    have hmaps : (js.map (fun j => ((t :: T').filter (fun s => P s && Q j s)).length)).sum =
        (js.map (fun j => if P t && Q j t then 1 else 0)).sum +
          (js.map (fun j => (T'.filter (fun s => P s && Q j s)).length)).sum := by
      rw [← List.sum_map_add]
      congr 1
      exact List.map_congr_left (fun j _ => hsplit j)
    rw [hmaps, ih (fun s hs hP => huniq s (List.mem_cons_of_mem _ hs) hP),
      List.filter_cons]
    by_cases hP : P t = true
    · have hind : (js.map (fun j => if P t && Q j t then 1 else 0)).sum =
          (js.filter (fun j => Q j t)).length := by
        rw [← sum_map_indicator js (fun j => Q j t)]
        congr 1
        exact List.map_congr_left (fun j _ => by simp [hP])
      rw [hind, huniq t (List.mem_cons_self _ _) hP]
      simp [hP]
      omega
    · have hind : (js.map (fun j => if P t && Q j t then 1 else 0)).sum = 0 := by
        have : ∀ j ∈ js, (if P t && Q j t then 1 else 0) = 0 := by
          intro j _
          simp [hP]
        rw [List.map_congr_left this]
        simp
      rw [hind]
      simp [hP]

/-! ## The state list is sorted and duplicate-free on NaN-free data -/

theorem pyLe_total_some {a b : ℚ} (h : ¬ pyLe (some a) (some b) = true) :
    pyLe (some b) (some a) = true := by
  simp [pyLe] at *
  exact le_of_lt h

theorem pyLe_trans_some {a b c : PVal} (hab : pyLe a b = true)
    (hbc : pyLe b c = true) : pyLe a c = true := by
  cases a <;> cases b <;> cases c <;> simp_all [pyLe]
  exact le_trans hab hbc

theorem dedupPy_pairwise (l : List PVal) :
    (dedupPy l).Pairwise (fun a b => pyKeyEq b a = false) := by
  induction l with
  | nil => exact List.Pairwise.nil
  | cons x xs ih =>
    rw [dedupPy]
    refine List.Pairwise.cons ?_ (List.Pairwise.sublist (List.filter_sublist _) ih)
    intro y hy
    have := (List.mem_filter.mp hy).2
    simpa using this

theorem insertPy_perm (x : PVal) (l : List PVal) :
    (insertPy x l).Perm (x :: l) := by
  induction l with
  | nil => exact List.Perm.refl _
  | cons y ys ih =>
    by_cases hle : pyLe x y = true
    · rw [insertPy, if_pos hle]
    · rw [insertPy, if_neg hle]
      exact (List.Perm.cons y ih).trans (List.Perm.swap x y ys)

theorem sortPy_perm (l : List PVal) : (sortPy l).Perm l := by
  induction l with
  | nil => exact List.Perm.refl _
  | cons x xs ih =>
    exact (insertPy_perm x (sortPy xs)).trans (List.Perm.cons x ih)

theorem insertPy_pairwise_le {x : PVal} {l : List PVal}
    (hl : ∀ v ∈ l, v ≠ none) (hx : x ≠ none)
    (h : l.Pairwise (fun a b => pyLe a b = true)) :
    (insertPy x l).Pairwise (fun a b => pyLe a b = true) := by
  induction l with
  | nil => simp [insertPy]
  | cons y ys ih =>
    rcases List.pairwise_cons.mp h with ⟨hy, hys⟩
    by_cases hle : pyLe x y = true
    · rw [insertPy, if_pos hle]
      refine List.Pairwise.cons ?_ h
      intro z hz
      rcases List.mem_cons.mp hz with hz | hz
      · subst hz; exact hle
      · exact pyLe_trans_some hle (hy z hz)
    · rw [insertPy, if_neg hle]
      have hyx : pyLe y x = true := by
        rcases Option.ne_none_iff_exists.mp hx with ⟨a, ha⟩
        rcases Option.ne_none_iff_exists.mp (hl y (List.mem_cons_self _ _)) with ⟨b, hb⟩
        subst ha hb
        exact pyLe_total_some hle
      refine List.Pairwise.cons ?_
        (ih (fun v hv => hl v (List.mem_cons_of_mem _ hv)) hys)
      intro z hz
      rcases mem_insertPy.mp hz with hz | hz
      · subst hz; exact hyx
      · exact hy z hz

theorem sortPy_pairwise_le {l : List PVal} (hl : ∀ v ∈ l, v ≠ none) :
    (sortPy l).Pairwise (fun a b => pyLe a b = true) := by
  induction l with
  | nil => exact List.Pairwise.nil
  | cons x xs ih =>
    rw [sortPy]
    have hxs : ∀ v ∈ xs, v ≠ none := fun v hv => hl v (List.mem_cons_of_mem _ hv)
    refine insertPy_pairwise_le ?_ (hl x (List.mem_cons_self _ _)) (ih hxs)
    intro v hv
    exact hxs v (mem_sortPy.mp hv)

/-- The state list has no duplicates (the dedup removes every key-equal
repeat, and key equality is plain equality on values). -/
theorem uniqueStates_nodup {data : List PVal} (h : ∀ v ∈ data, v ≠ none) :
    (uniqueStates data).Nodup := by
  have hded : (dedupPy data).Pairwise (fun a b => a ≠ b) := by
    refine (dedupPy_pairwise data).imp ?_
    intro a b hab heq
    subst heq
    rw [pyKeyEq_refl] at hab
    simp at hab
  exact ((sortPy_perm (dedupPy data)).nodup_iff).mpr hded

/-- On a duplicate-free state list, `stateIndex` inverts indexing. -/
theorem stateIndex_eq_of_getD {states : List PVal} (hnd : states.Nodup)
    {q : ℚ} {i : Nat} (hi : i < states.length)
    (hv : states.getD i none = some q) :
    stateIndex states (some q) = some i := by
  induction states generalizing i with
  | nil => simp at hi
  | cons s rest ih =>
    rcases List.pairwise_cons.mp hnd with ⟨hs, hrest⟩
    cases i with
    | zero =>
      have hsq : s = some q := by simpa using hv
      rw [stateIndex, if_pos (by rw [hsq]; exact pyKeyEq_refl _)]
    | succ j =>
      have hj : j < rest.length := by simpa using hi
      have hv' : rest.getD j none = some q := by simpa using hv
      have hmem : some q ∈ rest := by
        rw [← hv', List.getD_eq_getElem _ _ hj]
        exact List.getElem_mem hj
      have hsq : ¬ pyKeyEq s (some q) = true := by
        intro hp
        exact hs _ hmem (pyKeyEq_eq_of_true hp)
      rw [stateIndex, if_neg hsq, ih hrest hj hv']
      rfl

theorem pyLt_of_le_ne {a b : PVal} (ha : a ≠ none) (hb : b ≠ none)
    (hle : pyLe a b = true) (hne : a ≠ b) : pyLt a b = true := by
  rcases Option.ne_none_iff_exists.mp ha with ⟨x, hx⟩
  rcases Option.ne_none_iff_exists.mp hb with ⟨y, hy⟩
  rw [← hx, ← hy] at hle hne ⊢
  simp only [pyLe, decide_eq_true_eq] at hle
  simp only [pyLt, decide_eq_true_eq]
  refine lt_of_le_of_ne hle ?_
  intro hxy
  exact hne (by rw [hxy])

/-- On NaN-free data the state list is strictly increasing: sorted, with
each distinct value appearing exactly once. -/
theorem uniqueStates_pairwise_lt {data : List PVal} (h : ∀ v ∈ data, v ≠ none) :
    (uniqueStates data).Pairwise (fun a b => pyLt a b = true) := by
  have h1 : (uniqueStates data).Pairwise (fun a b => pyLe a b = true) :=
    sortPy_pairwise_le (fun v hv => h v (mem_of_mem_dedupPy hv))
  have h2 : (uniqueStates data).Pairwise (fun a b => a ≠ b) := uniqueStates_nodup h
  refine List.Pairwise.imp_of_mem ?_ (h1.and h2)
  intro a b ha hb hab
  exact pyLt_of_le_ne (h a (mem_of_mem_uniqueStates ha))
    (h b (mem_of_mem_uniqueStates hb)) hab.1 hab.2

/-! ## The transition matrix on NaN-free data -/

/-- The sequential state number `dict_sequencial[v]` of a data value. -/
def fIdx (data : List PVal) (v : PVal) : Nat :=
  (stateIndex (uniqueStates data) v).getD 0

theorem stateIndex_of_noNaN {data : List PVal} (h : ∀ v ∈ data, v ≠ none)
    {v : PVal} (hv : v ∈ data) :
    stateIndex (uniqueStates data) v = some (fIdx data v) := by
  rcases Option.ne_none_iff_exists.mp (h v hv) with ⟨q, hq⟩
  subst hq
  rcases Option.isSome_iff_exists.mp
    (stateIndex_isSome_of_mem (mem_uniqueStates_of_mem hv)) with ⟨k, hk⟩
  rw [fIdx, hk]
  rfl

theorem fIdx_lt {data : List PVal} (h : ∀ v ∈ data, v ≠ none)
    {v : PVal} (hv : v ∈ data) : fIdx data v < (uniqueStates data).length :=
  (stateIndex_some (stateIndex_of_noNaN h hv)).1

theorem fIdx_getD {data : List PVal} (h : ∀ v ∈ data, v ≠ none)
    {v : PVal} (hv : v ∈ data) :
    (uniqueStates data).getD (fIdx data v) none = v :=
  (stateIndex_some (stateIndex_of_noNaN h hv)).2

theorem fIdx_eq_of_getD {data : List PVal} (h : ∀ v ∈ data, v ≠ none)
    {v : PVal} (hv : v ∈ data) {i : Nat} (hi : i < (uniqueStates data).length)
    (hgd : (uniqueStates data).getD i none = v) : fIdx data v = i := by
  rcases Option.ne_none_iff_exists.mp (h v hv) with ⟨q, hq⟩
  subst hq
  rw [fIdx, stateIndex_eq_of_getD (uniqueStates_nodup h) hi hgd]
  rfl

/-- The numbered transition pairs traversed by the loop, on NaN-free data. -/
theorem tn_zip_eq (data : List PVal) (lead : Nat) (h : ∀ v ∈ data, v ≠ none) :
    (data.map (stateIndex (uniqueStates data))).zip
      ((data.map (stateIndex (uniqueStates data))).drop lead) =
    ((data.zip (data.drop lead)).map (fun p => (fIdx data p.1, fIdx data p.2))).map
      (fun p => (some p.1, some p.2)) := by
  rw [← List.map_drop, List.zip_map, List.map_map]
  apply List.map_congr_left
  intro p hp
  rcases p with ⟨a, b⟩
  obtain ⟨ha, hb⟩ := List.of_mem_zip hp
  show (stateIndex (uniqueStates data) a, stateIndex (uniqueStates data) b) = _
  rw [stateIndex_of_noNaN h ha, stateIndex_of_noNaN h (List.mem_of_mem_drop hb)]
  rfl

theorem gp_bounds (data : List PVal) (lead : Nat) (h : ∀ v ∈ data, v ≠ none) :
    ∀ p ∈ (data.zip (data.drop lead)).map (fun p => (fIdx data p.1, fIdx data p.2)),
      p.1 < (uniqueStates data).length ∧ p.2 < (uniqueStates data).length := by
  intro p hp
  rcases List.mem_map.mp hp with ⟨q, hq, hpq⟩
  rcases q with ⟨a, b⟩
  obtain ⟨ha, hb⟩ := List.of_mem_zip hq
  subst hpq
  exact ⟨fIdx_lt h ha, fIdx_lt h (List.mem_of_mem_drop hb)⟩

/-- Transition-pair multiplicities are the positional transition counts. -/
theorem gp_count_eq (data : List PVal) (lead : Nat) (h : ∀ v ∈ data, v ≠ none)
    {i j : Nat} (hi : i < (uniqueStates data).length)
    (hj : j < (uniqueStates data).length) :
    ((data.zip (data.drop lead)).map
        (fun p => (fIdx data p.1, fIdx data p.2))).count (i, j)
      = transCount data lead ((uniqueStates data).getD i none)
          ((uniqueStates data).getD j none) := by
  rw [List.count_eq_countP, List.countP_map, countP_zip_drop data lead _ none,
    transCount]
  congr 1
  apply List.filter_congr
  intro t ht
  have htl : t < data.length - lead := List.mem_range.mp ht
  have h1 : t < data.length := by omega
  have h2 : t + lead < data.length := by omega
  have ha : data.getD t none ∈ data := by
    rw [List.getD_eq_getElem _ _ h1]
    exact List.getElem_mem h1
  have hb : data.getD (t + lead) none ∈ data := by
    rw [List.getD_eq_getElem _ _ h2]
    exact List.getElem_mem h2
  apply Bool.eq_iff_iff.mpr
  constructor
  · intro hx
    have hx' : (fIdx data (data.getD t none),
        fIdx data (data.getD (t + lead) none)) = (i, j) := by
      simpa using hx
    rw [decide_eq_true_eq]
    rw [Prod.mk.injEq] at hx'
    exact ⟨hx'.1 ▸ (fIdx_getD h ha).symm, hx'.2 ▸ (fIdx_getD h hb).symm⟩
  · intro hx
    rw [decide_eq_true_eq] at hx
    have e1 : fIdx data (data.getD t none) = i := fIdx_eq_of_getD h ha hi hx.1.symm
    have e2 : fIdx data (data.getD (t + lead) none) = j :=
      fIdx_eq_of_getD h hb hj hx.2.symm
    show ((fIdx data (data.getD t none),
      fIdx data (data.getD (t + lead) none)) == (i, j)) = true
    rw [beq_iff_eq, Prod.mk.injEq]
    exact ⟨e1, e2⟩

/-- A duplicate-free list holds each of its members exactly once. -/
theorem countP_eq_one_of_nodup {l : List PVal} (hnd : l.Nodup) {v : PVal}
    (hv : v ∈ l) : l.countP (fun x => decide (v = x)) = 1 := by
  induction l with
  | nil => simp at hv
  | cons x xs ih =>
    rcases List.pairwise_cons.mp hnd with ⟨hx, hxs⟩
    rcases List.mem_cons.mp hv with h1 | h1
    · subst h1
      rw [List.countP_cons]
      have hz : xs.countP (fun x => decide (v = x)) = 0 := by
        rw [List.countP_eq_zero]
        intro a ha
        simp only [decide_eq_true_eq]
        intro he
        exact hx a ha he
      simp [hz]
    · rw [List.countP_cons, ih hxs h1]
      have hxv : ¬ v = x := fun he => hx v h1 he.symm
      simp [hxv]

/-- Row sums of the count matrix: the transitions out of state `i` at the
given lead are exactly the positions holding state `i` (each of which moves
to exactly one state). -/
theorem row_sum_eq (data : List PVal) (lead : Nat) (h : ∀ v ∈ data, v ≠ none)
    {i : Nat} (hi : i < (uniqueStates data).length) :
    ((List.range (uniqueStates data).length).map (fun j =>
        transCount data lead ((uniqueStates data).getD i none)
          ((uniqueStates data).getD j none))).sum
      = outCount data lead ((uniqueStates data).getD i none) := by
  have hsplit : ∀ j : Nat, transCount data lead ((uniqueStates data).getD i none)
      ((uniqueStates data).getD j none) =
      ((List.range (data.length - lead)).filter (fun t =>
        decide (data.getD t none = (uniqueStates data).getD i none) &&
        decide (data.getD (t + lead) none = (uniqueStates data).getD j none))).length := by
    intro j
    rw [transCount]
    congr 1
    apply List.filter_congr
    intro t _
    by_cases hA : data.getD t none = (uniqueStates data).getD i none <;>
      by_cases hB : data.getD (t + lead) none = (uniqueStates data).getD j none <;>
      simp [hA, hB]
  rw [List.map_congr_left (fun j _ => hsplit j), outCount]
  apply sum_counts_eq
  intro t ht hP
  have htl : t < data.length - lead := List.mem_range.mp ht
  have h2 : t + lead < data.length := by omega
  have hb : data.getD (t + lead) none ∈ data := by
    rw [List.getD_eq_getElem _ _ h2]
    exact List.getElem_mem h2
  rcases Option.ne_none_iff_exists.mp (h _ hb) with ⟨q, hq⟩
  have hmem : data.getD (t + lead) none ∈ uniqueStates data := by
    rw [← hq]
    exact mem_uniqueStates_of_mem (hq ▸ hb)
  have hcnt := countP_eq_one_of_nodup (uniqueStates_nodup h) hmem
  rw [countP_eq_range_filter _ _ none] at hcnt
  exact hcnt

/-- Normalising the count matrix produced by the loop gives the closed-form
probability matrix (with the `0/0 = 0` convention on rows without
outgoing transitions). -/
theorem foldCount_normalize (n : Nat) (gp : List (Nat × Nat))
    (C : Nat → Nat → Nat) (O : Nat → Nat)
    (hb : ∀ p ∈ gp, p.1 < n ∧ p.2 < n)
    (hC : ∀ i j, i < n → j < n → gp.count (i, j) = C i j)
    (hO : ∀ i, i < n → ((List.range n).map (fun j => C i j)).sum = O i) :
    (foldCount gp (List.replicate n (List.replicate n 0))).map normalizeRow
      = (List.range n).map (fun i => (List.range n).map (fun j =>
          (C i j : ℚ) / (O i : ℚ))) := by
  set Mc := foldCount gp (List.replicate n (List.replicate n 0)) with hMcdef
  have hM : MShape Mc n := shape_foldCount (shape_replicate n)
  obtain ⟨hlen, hrows⟩ := hM
  have hentry : ∀ i j, i < n → j < n → entryN Mc i j = C i j := by
    intro i j hi hj
    rw [hMcdef, entryN_foldCount (shape_replicate n) hb, entryN_replicate,
      ← hC i j hi hj]
    simp
  apply List.ext_getElem
  · simp [hlen]
  · intro i h1 h2
    have hi : i < n := by
      rw [List.length_map, hlen] at h1
      exact h1
    have hiM : i < Mc.length := by omega
    rw [List.getElem_map, List.getElem_map, List.getElem_range,
      ← List.getD_eq_getElem Mc [] hiM]
    have hrowlen : (Mc.getD i []).length = n := by
      rw [List.getD_eq_getElem Mc [] hiM]
      exact hrows _ (List.getElem_mem hiM)
    have hrowlist : Mc.getD i [] = (List.range n).map (fun j => entryN Mc i j) := by
      apply List.ext_getElem
      · rw [hrowlen, List.length_map, List.length_range]
      · intro j hj1 hj2
        have hj : j < n := by
          rw [hrowlen] at hj1
          exact hj1
        rw [List.getElem_map, List.getElem_range, entryN,
          List.getD_eq_getElem _ 0 (by rw [hrowlen]; exact hj)]
    have hrowsum : (Mc.getD i []).sum = O i := by
      rw [hrowlist, List.map_congr_left (fun j hj =>
        hentry i j hi (List.mem_range.mp hj)), hO i hi]
    by_cases hpos : 0 < (Mc.getD i []).sum
    · rw [normalizeRow, if_pos hpos, hrowsum, hrowlist, List.map_map]
      apply List.map_congr_left
      intro j hj
      show (Nat.cast (entryN Mc i j) : ℚ) / _ = _
      rw [hentry i j hi (List.mem_range.mp hj)]
    · have hzero : (Mc.getD i []).sum = 0 := by omega
      have hOzero : O i = 0 := by rw [← hrowsum, hzero]
      have hCzero : ∀ j, j < n → C i j = 0 := by
        intro j hj
        have : entryN Mc i j = 0 := by
          refine List.sum_eq_zero_iff.mp hzero _ ?_
          rw [hrowlist]
          exact List.mem_map.mpr ⟨j, List.mem_range.mpr hj, rfl⟩
        rw [← hentry i j hi hj, this]
      rw [normalizeRow, if_neg hpos, hrowlist, List.map_map]
      apply List.map_congr_left
      intro j hj
      show (Nat.cast (entryN Mc i j) : ℚ) = _
      rw [hentry i j hi (List.mem_range.mp hj), hCzero j (List.mem_range.mp hj),
        hOzero]
      simp

/-- The closed-form transition-probability matrix: entry `(i, j)` is the
number of observed `i → j` transitions divided by the number of observed
transitions out of `i` (with `0/0 = 0` for states without outgoing
transitions). -/
def countMatrix (data : List PVal) (lead : Nat) : List (List ℚ) :=
  (List.range (uniqueStates data).length).map (fun i =>
    (List.range (uniqueStates data).length).map (fun j =>
      (transCount data lead ((uniqueStates data).getD i none)
          ((uniqueStates data).getD j none) : ℚ) /
        (outCount data lead ((uniqueStates data).getD i none) : ℚ)))

/-- On NaN-free data, `transition_matrix` returns the matrix of empirical
transition probabilities, indexed by the sorted unique states. -/
theorem transition_matrix_noNaN_spec (data : List PVal) (lead : Nat)
    (h : ∀ v ∈ data, v ≠ none) :
    transition_matrix data lead =
      some ⟨uniqueStates data, countMatrix data lead⟩ := by
  rw [transition_matrix_eq, tn_zip_eq data lead h, countLoop_map_some,
    Option.map_some']
  have hmx : (foldCount ((data.zip (data.drop lead)).map
      (fun p => (fIdx data p.1, fIdx data p.2)))
      (List.replicate (uniqueStates data).length
        (List.replicate (uniqueStates data).length 0))).map normalizeRow
      = countMatrix data lead := by
    rw [countMatrix]
    apply foldCount_normalize
    · exact gp_bounds data lead h
    · intro i j hi hj
      exact gp_count_eq data lead h hi hj
    · intro i hi
      exact row_sum_eq data lead h hi
  rw [hmx]

theorem entryQ_countMatrix (data : List PVal) (lead : Nat) {i j : Nat}
    (hi : i < (uniqueStates data).length) (hj : j < (uniqueStates data).length) :
    entryQ (countMatrix data lead) i j =
      (transCount data lead ((uniqueStates data).getD i none)
        ((uniqueStates data).getD j none) : ℚ) /
      (outCount data lead ((uniqueStates data).getD i none) : ℚ) := by
  have h1 : (countMatrix data lead).getD i [] =
      (List.range (uniqueStates data).length).map (fun j =>
        (transCount data lead ((uniqueStates data).getD i none)
          ((uniqueStates data).getD j none) : ℚ) /
        (outCount data lead ((uniqueStates data).getD i none) : ℚ)) := by
    rw [countMatrix, List.getD_eq_getElem _ _ (by simpa using hi),
      List.getElem_map, List.getElem_range]
  rw [entryQ, h1, List.getD_eq_getElem _ _ (by simpa using hj),
    List.getElem_map, List.getElem_range]

theorem countMatrix_row_dichotomy (data : List PVal) (lead : Nat)
    (h : ∀ v ∈ data, v ≠ none) {i : Nat}
    (hi : i < (uniqueStates data).length) :
    ((countMatrix data lead).getD i []).sum = 1 ∨
      ∀ x ∈ (countMatrix data lead).getD i [], x = 0 := by
  have hrow : (countMatrix data lead).getD i [] =
      (List.range (uniqueStates data).length).map (fun j =>
        (transCount data lead ((uniqueStates data).getD i none)
          ((uniqueStates data).getD j none) : ℚ) /
        (outCount data lead ((uniqueStates data).getD i none) : ℚ)) := by
    rw [countMatrix, List.getD_eq_getElem _ _ (by simpa using hi),
      List.getElem_map, List.getElem_range]
  have hsum := row_sum_eq data lead h hi
  by_cases hO : 0 < outCount data lead ((uniqueStates data).getD i none)
  · left
    rw [hrow]
    have hcast : ((List.range (uniqueStates data).length).map (fun j =>
        (transCount data lead ((uniqueStates data).getD i none)
          ((uniqueStates data).getD j none) : ℚ))).sum
        = (outCount data lead ((uniqueStates data).getD i none) : ℚ) := by
      have hcomp : (List.range (uniqueStates data).length).map (fun j =>
          (transCount data lead ((uniqueStates data).getD i none)
            ((uniqueStates data).getD j none) : ℚ)) =
          ((List.range (uniqueStates data).length).map (fun j =>
            transCount data lead ((uniqueStates data).getD i none)
              ((uniqueStates data).getD j none))).map (Nat.cast : ℕ → ℚ) := by
        rw [List.map_map]
        rfl
      rw [hcomp, ← Nat.cast_list_sum, hsum]
    have hdiv : ((List.range (uniqueStates data).length).map (fun j =>
        (transCount data lead ((uniqueStates data).getD i none)
          ((uniqueStates data).getD j none) : ℚ) /
        (outCount data lead ((uniqueStates data).getD i none) : ℚ))).sum
        = ((List.range (uniqueStates data).length).map (fun j =>
          (transCount data lead ((uniqueStates data).getD i none)
            ((uniqueStates data).getD j none) : ℚ))).sum /
          (outCount data lead ((uniqueStates data).getD i none) : ℚ) := by
      simp only [div_eq_mul_inv]
      rw [List.sum_map_mul_right]
    rw [hdiv, hcast, div_self
      (Nat.cast_ne_zero.mpr (by omega))]
  · right
    intro x hx
    rw [hrow] at hx
    rcases List.mem_map.mp hx with ⟨j, hj, hxj⟩
    have hO0 : outCount data lead ((uniqueStates data).getD i none) = 0 := by
      omega
    have hC0 : transCount data lead ((uniqueStates data).getD i none)
        ((uniqueStates data).getD j none) = 0 := by
      refine List.sum_eq_zero_iff.mp (by rw [hsum, hO0]) _ ?_
      exact List.mem_map.mpr ⟨j, hj, rfl⟩
    rw [← hxj, hC0, hO0]
    simp

/-- The full specification of `transition_matrix` on NaN-free data and a
positive lead: the returned matrix is indexed by the sorted unique states,
its entries are the empirical transition probabilities, and each row sums
to 1 or is all zeros. -/
def TransitionMatrixSpec (data : List PVal) (lead : Nat) : Prop :=
  ∃ T : TMatrix, transition_matrix data lead = some T ∧
    T.states = uniqueStates data ∧
    T.states.Pairwise (fun a b => pyLt a b = true) ∧
    (∀ v, v ∈ T.states ↔ v ∈ data) ∧
    T.rows.length = T.states.length ∧
    (∀ i j, i < T.states.length → j < T.states.length →
      entryQ T.rows i j =
        (transCount data lead (T.states.getD i none)
            (T.states.getD j none) : ℚ) /
          (outCount data lead (T.states.getD i none) : ℚ)) ∧
    (∀ i, i < T.states.length →
      (T.rows.getD i []).sum = 1 ∨ ∀ x ∈ T.rows.getD i [], x = 0)

/-- C8: for every NaN-free input vector and lead >= 1, the matrix returned
by `transition_matrix` is indexed by the sorted unique states, its entry
`M[i][j]` equals the number of observed `i → j` transitions at that lead
divided by the total number of transitions out of state `i`, and every row
sums to 1 or is all zeros (when state `i` has no observed outgoing
transition). -/
theorem claim_C8 (data : List PVal) (lead : Nat) (hlead : 1 ≤ lead)
    (h : ∀ v ∈ data, v ≠ none) : TransitionMatrixSpec data lead := by
  refine ⟨⟨uniqueStates data, countMatrix data lead⟩,
    transition_matrix_noNaN_spec data lead h, rfl, uniqueStates_pairwise_lt h,
    ?_, ?_, ?_, ?_⟩
  · intro v
    constructor
    · exact mem_of_mem_uniqueStates
    · intro hv
      rcases Option.ne_none_iff_exists.mp (h v hv) with ⟨q, hq⟩
      rw [← hq] at hv ⊢
      exact mem_uniqueStates_of_mem hv
  · simp [countMatrix]
  · intro i j hi hj
    exact entryQ_countMatrix data lead hi hj
  · intro i hi
    exact countMatrix_row_dichotomy data lead h hi

/-- C8 witness: the specification evaluated on a concrete NaN-free vector. -/
theorem claim_C8_witness :
    TransitionMatrixSpec [some 1, some 2, some 1, some 1] 1 :=
  claim_C8 [some 1, some 2, some 1, some 1] 1 (by decide) (by decide)

/-! ## C4: equivalence with the off-the-shelf library estimator -/

theorem eq_map_some_of_all_some {l : List PVal}
    (h : ∀ v ∈ l, ∃ q : ℚ, v = some q) : ∃ qs : List ℚ, l = qs.map some := by
  induction l with
  | nil => exact ⟨[], rfl⟩
  | cons x xs ih =>
    rcases h x (List.mem_cons_self _ _) with ⟨q, hq⟩
    rcases ih (fun v hv => h v (List.mem_cons_of_mem _ hv)) with ⟨qs, hqs⟩
    exact ⟨q :: qs, by rw [hq, hqs]; rfl⟩

theorem map_some_getD (qs : List ℚ) {i : Nat} (hi : i < qs.length) :
    (qs.map some).getD i none = some (qs.get ⟨i, hi⟩) := by
  rw [List.getD_eq_getElem _ _ (by simpa using hi), List.getElem_map]
  rfl

/-- Modelled from the spec: "Markov transition-matrix estimation — is all
delegated to off-the-shelf statistical libraries".  The state space such a
library derives from the data: the sorted distinct observed values. -/
def libStates (data : List ℚ) : List ℚ :=
  data.toFinset.sort (· ≤ ·)

/-- Modelled from the spec: the transition matrix computed by an
off-the-shelf statistical library — the maximum-likelihood Markov estimate
over the sorted distinct states, entry `(a, b)` being
`count(a → b) / count(a → ·)` at the requested lag. -/
def libraryTransitionMatrix (data : List ℚ) (lead : Nat) : TMatrix :=
  ⟨(libStates data).map some,
    (libStates data).map (fun a => (libStates data).map (fun b =>
      (transCount (data.map some) lead (some a) (some b) : ℚ) /
        (outCount (data.map some) lead (some a) : ℚ)))⟩

/-- The unique-state list built by the notebook code coincides with the
sorted distinct values a library derives. -/
theorem uniqueStates_map_some (data : List ℚ) :
    uniqueStates (data.map some) = (libStates data).map some := by
  have hnn : ∀ v ∈ data.map some, v ≠ none := by
    intro v hv
    rcases List.mem_map.mp hv with ⟨q, _, hq⟩
    rw [← hq]
    simp
  have hall : ∀ v ∈ uniqueStates (data.map some), ∃ q : ℚ, v = some q := by
    intro v hv
    rcases Option.ne_none_iff_exists.mp (hnn v (mem_of_mem_uniqueStates hv))
      with ⟨q, hq⟩
    exact ⟨q, hq.symm⟩
  rcases eq_map_some_of_all_some hall with ⟨qs, hqs⟩
  rw [hqs]
  congr 1
  have hsorted : qs.Sorted (· < ·) := by
    have hp := uniqueStates_pairwise_lt hnn
    rw [hqs, List.pairwise_map] at hp
    refine hp.imp ?_
    intro a b hab
    simpa [pyLt] using hab
  have hsorted2 : (libStates data).Sorted (· < ·) := Finset.sort_sorted_lt _
  have hmemiff : ∀ x : ℚ, x ∈ qs ↔ x ∈ libStates data := by
    intro x
    rw [libStates, Finset.mem_sort, List.mem_toFinset]
    constructor
    · intro hx
      have h1 : some x ∈ uniqueStates (data.map some) := by
        rw [hqs]
        exact List.mem_map_of_mem _ hx
      rcases List.mem_map.mp (mem_of_mem_uniqueStates h1) with ⟨y, hy, hxy⟩
      rw [Option.some.injEq] at hxy
      rw [← hxy]
      exact hy
    · intro hx
      have h1 : some x ∈ uniqueStates (data.map some) :=
        mem_uniqueStates_of_mem (List.mem_map_of_mem _ hx)
      rw [hqs] at h1
      rcases List.mem_map.mp h1 with ⟨y, hy, hxy⟩
      rw [Option.some.injEq] at hxy
      rw [← hxy]
      exact hy
  have hperm : qs.Perm (libStates data) :=
    (List.perm_ext_iff_of_nodup hsorted.nodup
      (Finset.sort_nodup _ _)).mpr hmemiff
  exact List.eq_of_perm_of_sorted hperm hsorted.le_of_lt hsorted2.le_of_lt

/-- C4: the transition matrix returned by the notebook's own
`transition_matrix` (hand-written counting loops) coincides, on every
NaN-free input and lag, with the maximum-likelihood Markov estimate that a
pre-built statistical library computes; in this sense the surrounding code
is glue around the standard estimator. -/
theorem claim_C4 (data : List ℚ) (lead : Nat) :
    transition_matrix (data.map some) lead =
      some (libraryTransitionMatrix data lead) := by
  have hnn : ∀ v ∈ data.map some, v ≠ none := by
    intro v hv
    rcases List.mem_map.mp hv with ⟨q, _, hq⟩
    rw [← hq]
    simp
  have hst : uniqueStates (data.map some) = (libStates data).map some :=
    uniqueStates_map_some data
  have hn : (uniqueStates (data.map some)).length = (libStates data).length := by
    rw [hst]
    simp
  have hrows : countMatrix (data.map some) lead =
      (libStates data).map (fun a => (libStates data).map (fun b =>
        (transCount (data.map some) lead (some a) (some b) : ℚ) /
          (outCount (data.map some) lead (some a) : ℚ))) := by
    rw [countMatrix]
    apply List.ext_getElem
    · simp [hn]
    · intro i h1 h2
      have hi : i < (libStates data).length := by
        rw [List.length_map] at h2
        exact h2
      rw [List.getElem_map, List.getElem_range, List.getElem_map]
      apply List.ext_getElem
      · simp [hn]
      · intro j hj1 hj2
        have hj : j < (libStates data).length := by
          rw [List.length_map] at hj2
          exact hj2
        rw [List.getElem_map, List.getElem_range, List.getElem_map, hst,
          map_some_getD _ hi, map_some_getD _ hj]
        rfl
  rw [transition_matrix_noNaN_spec (data.map some) lead hnn,
    libraryTransitionMatrix]
  rw [Option.some.injEq, TMatrix.mk.injEq]
  exact ⟨hst, hrows⟩

/-! ## Extreme-precipitation events: quantile thresholds and exceedance -/

/-- Insertion step of sorting a cell's values. -/
def insertQ (x : ℚ) : List ℚ → List ℚ
  | [] => [x]
  | y :: ys => if x ≤ y then x :: y :: ys else y :: insertQ x ys

/-- Sorting the (NaN-free) values of one grid cell. -/
def sortQ : List ℚ → List ℚ
  | [] => []
  | x :: xs => insertQ x (sortQ xs)

/-- NumPy's linear-interpolation quantile (`interpolation='linear'`), used by
`dataset.quantile(quantile, dim='time')`: with `ys` the sorted values and
`h = q*(n-1)`, the result is `ys[⌊h⌋] + (h-⌊h⌋)*(ys[⌊h⌋+1]-ys[⌊h⌋])`. -/
def quantileLinear (xs : List ℚ) (q : ℚ) : ℚ :=
  let ys := sortQ xs
  let n := ys.length
  let h : ℚ := q * ((n : ℚ) - 1)
  let i : Nat := h.floor.toNat
  if i + 1 < n then ys.getD i 0 + (h - (i : ℚ)) * (ys.getD (i + 1) 0 - ys.getD i 0)
  else ys.getD (n - 1) 0

/-- The per-cell quantile threshold `Q_thres` of `dates_extreme` (and `Quant`
of the `Exceed_xr` pipeline): xarray's `quantile` skips NaN values in a
float cell, and an all-NaN cell (sea points in EOBS) yields a NaN
threshold, with the RuntimeWarning suppressed. -/
def cellThreshold (cell : List PVal) (q : ℚ) : PVal :=
  match cell.filterMap id with
  | [] => none
  | ys => some (quantileLinear ys q)

/-- `dates_extreme` for one grid cell: the time positions whose value
strictly exceeds the cell's quantile threshold
(`QuantExceed = dataset_df > Q_thres`, then the indices where it holds). -/
def dates_extreme (cell : List PVal) (q : ℚ) : List Nat :=
  (List.range cell.length).filter
    (fun t => pyGt (cell.getD t none) (cellThreshold cell q))

/-- One entry of the boolean field `Exceed_xr = (EOBS > Quant)*1`. -/
def exceedIndicator (cell : List PVal) (q : ℚ) (t : Nat) : Int :=
  if pyGt (cell.getD t none) (cellThreshold cell q) then 1 else 0

theorem filterMap_id_map_some (cell : List ℚ) :
    (cell.map some).filterMap id = cell := by
  induction cell with
  | nil => rfl
  | cons x xs ih => simp [ih]

theorem cellThreshold_map_some (cell : List ℚ) (q : ℚ) (h : cell ≠ []) :
    cellThreshold (cell.map some) q = some (quantileLinear cell q) := by
  rw [cellThreshold]
  rcases cell with _ | ⟨x, xs⟩
  · exact absurd rfl h
  · rw [filterMap_id_map_some]

/-- The extreme-event characterisation of one NaN-free grid cell: a date is
an EPE (for `dates_extreme` and for `Exceed_xr`) exactly when its value
strictly exceeds the linearly-interpolated quantile of the cell's series;
equality with the threshold is not an EPE. -/
def EPESpec (cell : List ℚ) (q : ℚ) : Prop :=
  ∀ t : Nat,
    (t ∈ dates_extreme (cell.map some) q ↔
      t < cell.length ∧ quantileLinear cell q < cell.getD t 0) ∧
    (exceedIndicator (cell.map some) q t = 1 ↔
      t < cell.length ∧ quantileLinear cell q < cell.getD t 0) ∧
    (cell.getD t 0 = quantileLinear cell q →
      t ∉ dates_extreme (cell.map some) q ∧
        exceedIndicator (cell.map some) q t = 0)

/-- C2: exceedance of the climatological percentile threshold is strict:
for every grid cell, percentile and date, the date is reported as an EPE
(by `dates_extreme`, and by the `Exceed_xr` indicator) iff the value
strictly exceeds the cell's linearly-interpolated quantile; a value equal
to the threshold is not an EPE. -/
theorem claim_C2 (cell : List ℚ) (q : ℚ) (h : cell ≠ []) : EPESpec cell q := by
  intro t
  have hlen : (cell.map some).length = cell.length := by simp
  have hgt : pyGt ((cell.map some).getD t none)
      (cellThreshold (cell.map some) q) = true ↔
      t < cell.length ∧ quantileLinear cell q < cell.getD t 0 := by
    rw [cellThreshold_map_some cell q h]
    by_cases ht : t < cell.length
    · rw [List.getD_eq_getElem _ _ (by omega : t < (cell.map some).length),
        List.getElem_map, List.getD_eq_getElem _ _ ht]
      simp [pyGt, ht]
    · rw [List.getD_eq_default _ _ (by omega : (cell.map some).length ≤ t)]
      simp [pyGt, ht]
  have hmem : t ∈ dates_extreme (cell.map some) q ↔
      t < cell.length ∧ quantileLinear cell q < cell.getD t 0 := by
    rw [dates_extreme, List.mem_filter, List.mem_range, hlen, hgt]
    constructor
    · exact fun hx => hx.2
    · exact fun hx => ⟨hx.1, hx⟩
  refine ⟨hmem, ?_, ?_⟩
  · rw [exceedIndicator]
    constructor
    · intro hx
      by_cases hc : pyGt ((cell.map some).getD t none)
          (cellThreshold (cell.map some) q) = true
      · exact hgt.mp hc
      · rw [if_neg hc] at hx
        exact absurd hx (by norm_num)
    · intro hx
      rw [if_pos (hgt.mpr hx)]
  · intro heq
    have hng : ¬ (t < cell.length ∧ quantileLinear cell q < cell.getD t 0) := by
      intro hx
      rw [heq] at hx
      exact lt_irrefl _ hx.2
    refine ⟨fun hx => hng (hmem.mp hx), ?_⟩
    rw [exceedIndicator, if_neg (fun hc => hng (hgt.mp hc))]

/-- C2 witness: the specification evaluated on a concrete cell. -/
theorem claim_C2_witness : EPESpec [3, 1, 2] (1/2) :=
  claim_C2 [3, 1, 2] (1/2) (by decide)

/-- C3: a grid cell whose series is entirely missing (EOBS sea points) is
handled without failure: its quantile threshold is NaN and its exceedance
date list is empty. -/
theorem claim_C3 (cell : List PVal) (q : ℚ) (h : ∀ v ∈ cell, v = none) :
    cellThreshold cell q = none ∧ dates_extreme cell q = [] := by
  have hfm : cell.filterMap id = [] := by
    rw [List.filterMap_eq_nil]
    exact h
  have hthr : cellThreshold cell q = none := by
    rw [cellThreshold, hfm]
  refine ⟨hthr, ?_⟩
  rw [dates_extreme]
  rw [List.filter_eq_nil]
  intro t ht
  have hv : cell.getD t none = none := by
    by_cases h2 : t < cell.length
    · rw [List.getD_eq_getElem _ _ h2]
      exact h _ (List.getElem_mem h2)
    · exact List.getD_eq_default _ _ (by omega)
  rw [hv, hthr]
  simp [pyGt]

/-- C3 witness: an all-NaN cell of length 2 at the 95th percentile. -/
theorem claim_C3_witness :
    cellThreshold [none, none] (19/20) = none ∧
      dates_extreme [none, none] (19/20) = [] :=
  claim_C3 [none, none] (19/20) (by decide)

/-! ## C9: the statistical-significance indicator -/

/-- `Sign = (Binom_Cum_Upper > .975)*1 + (Binom_Cum_Lower < .025)*(-1)` from
`extremes_to_clusters`, for one cell / percentile / cluster. -/
def signIndicator (binomCumUpper binomCumLower : ℚ) : Int :=
  (if binomCumUpper > 975/1000 then 1 else 0) +
    (if binomCumLower < 25/1000 then 1 else 0) * (-1)

/-- C9: the significance indicator only takes the values -1, 0 and +1. -/
theorem claim_C9 (u l : ℚ) :
    signIndicator u l = -1 ∨ signIndicator u l = 0 ∨ signIndicator u l = 1 := by
  rw [signIndicator]
  by_cases hu : u > 975/1000 <;> by_cases hl : l < 25/1000 <;> simp [hu, hl]

/-! ## C10: `days_extend` at offset 0, and the two overlap branches -/

/-- `pd.date_range(d - offset, d + offset)` for one date (dates are
modelled as day ordinals): the `2*offset + 1` consecutive days centred on
`d`. -/
def dateWindow (d : Int) (offset : Nat) : List Int :=
  (List.range (2 * offset + 1)).map (fun k => d - (offset : Int) + (k : Int))

/-- `days_extend(actual_dates, days_offset)`: the set of all dates within
the temporal window centred on each date of the list. -/
def days_extend (actual_dates : List Int) (days_offset : Nat) : Finset Int :=
  ((actual_dates.map (fun d => dateWindow d days_offset)).join).toFinset

/-- One grid cell of `calculate_overlap`'s `offset == 0` fast path:
`len(set(i) & set(j))/len(i)*100 if len(j) != 0 else np.nan`. -/
def overlapFast (i j : List Int) : Option ℚ :=
  if j.length ≠ 0 then
    some ((((i.toFinset ∩ j.toFinset).card : ℚ) / (i.length : ℚ)) * 100)
  else none

/-- One grid cell of `calculate_overlap`'s general branch:
`len(set(i) & days_extend(j, offset))/len(i)*100 if len(j) != 0 else np.nan`. -/
def overlapGeneral (i j : List Int) (offset : Nat) : Option ℚ :=
  if j.length ≠ 0 then
    some ((((i.toFinset ∩ days_extend j offset).card : ℚ) / (i.length : ℚ)) * 100)
  else none

/-- C10: a zero-width window adds no dates — `days_extend(j, 0)` is exactly
the set of dates of `j` — hence the `offset == 0` fast path returns the
same overlap percentage as the general branch evaluated at offset 0, for
every grid cell. -/
theorem claim_C10 :
    (∀ j : List Int, days_extend j 0 = j.toFinset) ∧
    (∀ i j : List Int, overlapFast i j = overlapGeneral i j 0) := by
  have hext : ∀ j : List Int, days_extend j 0 = j.toFinset := by
    intro j
    rw [days_extend]
    congr 1
    have hwin : ∀ d : Int, dateWindow d 0 = [d] := by
      intro d
      rw [dateWindow]
      have h1 : List.range (2 * 0 + 1) = [0] := rfl
      rw [h1]
      norm_num
    rw [List.map_congr_left (fun d _ => hwin d)]
    induction j with
    | nil => rfl
    | cons x xs ih => simp_all
  refine ⟨hext, ?_⟩
  intro i j
  rw [overlapFast, overlapGeneral, hext j]

/-! ## C5: parallel maps and the result dictionary -/

/-- Modelled from the spec: `pool.imap(worker, items)` — an embarrassingly
parallel map with no shared mutable state, no inter-worker communication
and no coordination — yields exactly the worker's results, in input
order. -/
def poolImap {α β : Type _} (worker : α → β) (items : List α) : List β :=
  items.map worker

/-- `{variables_used[i_c]: i_res for i_c, i_res in enumerate(results)}`:
the dictionary built by pairing each variable with the pool result at the
same index. -/
def resultDict {α β : Type _} (worker : α → β) (variables_used : List α) :
    List (α × β) :=
  variables_used.zip (poolImap worker variables_used)

theorem resultDict_getElem {α β : Type _} (worker : α → β) (xs : List α)
    {i : Nat} (hi : i < xs.length) :
    (xs.zip (xs.map worker))[i]? =
      some (xs.get ⟨i, hi⟩, worker (xs.get ⟨i, hi⟩)) := by
  have hlen : i < (xs.zip (xs.map worker)).length := by
    rw [List.length_zip, List.length_map]
    omega
  rw [List.getElem?_eq_getElem hlen, List.getElem_zip, List.getElem_map]
  rfl

theorem lookup_zip_map {α β : Type _} [DecidableEq α] (f : α → β)
    (xs : List α) {x : α} (hx : x ∈ xs) :
    (xs.zip (xs.map f)).lookup x = some (f x) := by
  induction xs with
  | nil => simp at hx
  | cons y ys ih =>
    show List.lookup x ((y, f y) :: ys.zip (ys.map f)) = some (f x)
    by_cases hxy : x = y
    · subst hxy
      simp [List.lookup]
    · rcases List.mem_cons.mp hx with h1 | h1
      · exact absurd h1 hxy
      · have hbeq : (x == y) = false := by
          simp [hxy]
        rw [List.lookup, hbeq]
        exact ih h1

/-- C5: the pool map is order-preserving and stateless, so the result list
is the sequential map of the worker over the inputs, the `i`-th dictionary
entry pairs `variables_used[i]` with the worker applied to that same
variable, and looking up any listed variable returns its own result. -/
theorem claim_C5 {α β : Type _} [DecidableEq α] (worker : α → β)
    (variables_used : List α) :
    poolImap worker variables_used = variables_used.map worker ∧
    (∀ (i : Nat) (hi : i < variables_used.length),
      (resultDict worker variables_used)[i]? =
        some (variables_used.get ⟨i, hi⟩,
          worker (variables_used.get ⟨i, hi⟩))) ∧
    (∀ x ∈ variables_used,
      (resultDict worker variables_used).lookup x = some (worker x)) := by
  refine ⟨rfl, ?_, ?_⟩
  · intro i hi
    exact resultDict_getElem worker variables_used hi
  · intro x hx
    exact lookup_zip_map worker variables_used hx

/-- C5 witness: the dictionary property evaluated on a concrete list. -/
theorem claim_C5_witness :
    (resultDict (fun v : Nat => v + 1) [3, 5]).lookup 5 = some 6 :=
  (claim_C5 (fun v : Nat => v + 1) [3, 5]).2.2 5 (by decide)

/-! ## C6: climatological anomalies -/

/-- Arithmetic mean (`.mean()` over a rolling window or a groupby group). -/
def listMean (l : List ℚ) : ℚ := l.sum / (l.length : ℚ)

/-- `Daily.rolling(time=5, center=True, min_periods=1).mean()` at position
`t`: the mean of the values in the 5-wide window centred at `t`, clipped
to the series (fewer than 5 values at the edges, per `min_periods=1`). -/
def rollingMean5 (xs : List ℚ) : List ℚ :=
  (List.range xs.length).map (fun t => listMean ((xs.take (t + 3)).drop (t - 2)))

/-- `Smoothed.groupby('time').mean()` looked up at month-day key `k`: the
mean of the smoothed values carrying that key. -/
def climGroupMean {K : Type _} [DecidableEq K] (keys : List K) (vals : List ℚ)
    (k : K) : ℚ :=
  listMean (((keys.zip vals).filter (fun p => decide (p.1 = k))).map
    (fun p => p.2))

/-- The `anomalies` worker of the notebook: smooth the daily series with the
centred 5-day rolling mean, group by month-day to get the climatology,
subtract the matching climatology from each daily value
(`Daily.groupby('time') - Climatology`), and restore the original time
coordinates.  `dates` are the actual timestamps, `key` the
`strftime('%m%d')` month-day map, `values` the daily fields of one grid
cell. -/
def anomalies {D K : Type _} [DecidableEq K] (key : D → K) (dates : List D)
    (values : List ℚ) : List D × List ℚ :=
  (dates, ((dates.map key).zip values).map
    (fun p => p.2 - climGroupMean (dates.map key) (rollingMean5 values) p.1))

/-- The 5-day centred window mean, phrased positionally as the claims do:
the mean of the values at the positions within distance 2 of `t`. -/
def claimWindowMean (xs : List ℚ) (t : Nat) : ℚ :=
  listMean (((List.range xs.length).filter
    (fun u => decide (t ≤ u + 2 ∧ u ≤ t + 2))).map (fun u => xs.getD u 0))

/-- The climatology of the claim: for month-day `k`, the mean over all
timesteps with that month-day of the 5-day centred rolling mean of the
daily series. -/
def claimClimatology {D K : Type _} [DecidableEq K] [Inhabited K]
    (key : D → K) (dates : List D) (values : List ℚ) (k : K) : ℚ :=
  listMean (((List.range values.length).filter
    (fun u => decide ((dates.map key).getD u default = k))).map
    (fun u => claimWindowMean values u))

/-- An interval filter of `range n` is a consecutive run. -/
theorem range_filter_interval (n lo hi : Nat) :
    (List.range n).filter (fun u => decide (lo ≤ u ∧ u < hi)) =
      List.range' lo (min hi n - lo) := by
  induction n with
  | zero =>
    have h0 : min hi 0 - lo = 0 := by omega
    rw [h0]
    rfl
  | succ n ih =>
    rw [List.range_succ, List.filter_append, ih]
    by_cases h1 : lo ≤ n ∧ n < hi
    · have h2 : min hi (n + 1) - lo = (min hi n - lo) + 1 := by omega
      have h3 : min hi n - lo = n - lo := by omega
      rw [h2, List.range'_concat]
      have h4 : lo + 1 * (min hi n - lo) = n := by omega
      rw [h4]
      simp [h1.1, h1.2]
    · have h2 : min hi (n + 1) - lo = min hi n - lo := by omega
      rw [h2]
      have h3 : ((fun u => decide (lo ≤ u ∧ u < hi)) n) = false := by
        simp only [decide_eq_false_iff_not]
        exact h1
      have h4 : List.filter (fun u => decide (lo ≤ u ∧ u < hi)) [n] = [] := by
        rw [List.filter_cons, if_neg (by simp only [decide_eq_true_eq]; exact h1)]
        rfl
      rw [h4, List.append_nil]

/-- A take-then-drop slice, written as positions. -/
theorem take_drop_eq_range'_map (xs : List ℚ) (lo hi : Nat) :
    (xs.take hi).drop lo =
      (List.range' lo (min hi xs.length - lo)).map (fun u => xs.getD u 0) := by
  apply List.ext_getElem
  · rw [List.length_drop, List.length_take, List.length_map, List.length_range']
  · intro i h1 h2
    have hb : lo + i < xs.length := by
      rw [List.length_drop, List.length_take] at h1
      omega
    rw [List.getElem_drop, List.getElem_take, List.getElem_map,
      List.getElem_range']
    rw [List.getD_eq_getElem _ _ (by omega : lo + 1 * i < xs.length)]
    congr 1
    omega

/-- The code's rolling window at `t` is the claim's positional window. -/
theorem rollingMean5_getD (xs : List ℚ) {t : Nat} (ht : t < xs.length) :
    (rollingMean5 xs).getD t 0 = claimWindowMean xs t := by
  have hlen : t < (rollingMean5 xs).length := by
    rw [rollingMean5, List.length_map, List.length_range]
    omega
  rw [List.getD_eq_getElem _ _ hlen]
  simp only [rollingMean5, List.getElem_map, List.getElem_range]
  rw [claimWindowMean]
  congr 1
  have hpred : (List.range xs.length).filter
      (fun u => decide (t ≤ u + 2 ∧ u ≤ t + 2)) =
      (List.range xs.length).filter
        (fun u => decide (t - 2 ≤ u ∧ u < t + 3)) := by
    apply List.filter_congr
    intro u _
    have : (t ≤ u + 2 ∧ u ≤ t + 2) ↔ (t - 2 ≤ u ∧ u < t + 3) := by omega
    simp [this]
  rw [hpred, range_filter_interval xs.length (t - 2) (t + 3),
    take_drop_eq_range'_map]

/-- Selecting the values of the key-matching entries of a zipped list,
re-expressed over positions. -/
theorem filter_zip_eq_range {α K : Type _} [Inhabited K]
    (keys : List K) (vals : List α) (dflt : α) (p : K → Bool)
    (hlen : keys.length = vals.length) :
    ((keys.zip vals).filter (fun q => p q.1)).map (fun q => q.2) =
      ((List.range vals.length).filter
        (fun u => p (keys.getD u default))).map (fun u => vals.getD u dflt) := by
  induction keys generalizing vals with
  | nil =>
    cases vals with
    | nil => rfl
    | cons v vs => simp at hlen
  | cons k ks ih =>
    cases vals with
    | nil => simp at hlen
    | cons v vs =>
      have hlen' : ks.length = vs.length := by simpa using hlen
      have hzip : (k :: ks).zip (v :: vs) = (k, v) :: ks.zip vs := rfl
      rw [hzip, List.filter_cons, List.length_cons, List.range_succ_eq_map,
        List.filter_cons]
      have htail : ((List.map Nat.succ (List.range vs.length)).filter
          (fun u => p ((k :: ks).getD u default))).map
            (fun u => (v :: vs).getD u dflt) =
          ((List.range vs.length).filter
            (fun u => p (ks.getD u default))).map (fun u => vs.getD u dflt) := by
        rw [List.filter_map, List.map_map]
        have hcongr : (List.range vs.length).filter
            ((fun u => p ((k :: ks).getD u default)) ∘ Nat.succ) =
            (List.range vs.length).filter (fun u => p (ks.getD u default)) :=
          List.filter_congr (fun u _ => rfl)
        rw [hcongr]
        exact List.map_congr_left (fun u _ => rfl)
      have hp0 : (p ((k :: ks).getD 0 default) = true) = (p k = true) := rfl
      by_cases hp : p k = true
      · rw [if_pos hp, if_pos (hp0 ▸ hp), List.map_cons, List.map_cons, htail,
          ih vs hlen']
        rfl
      · rw [if_neg hp, if_neg (hp0 ▸ hp), htail, ih vs hlen']

theorem rollingMean5_length (xs : List ℚ) :
    (rollingMean5 xs).length = xs.length := by
  rw [rollingMean5, List.length_map, List.length_range]

/-- The notebook's groupby climatology equals the claim's: at each
month-day, the mean over all timesteps carrying it of the 5-day rolling
mean of the daily series. -/
theorem climGroupMean_eq_claim {D K : Type _} [DecidableEq K] [Inhabited K]
    (key : D → K) (dates : List D) (values : List ℚ)
    (hlen : dates.length = values.length) (k : K) :
    climGroupMean (dates.map key) (rollingMean5 values) k =
      claimClimatology key dates values k := by
  rw [climGroupMean, claimClimatology]
  congr 1
  rw [filter_zip_eq_range (dates.map key) (rollingMean5 values) 0
    (fun x => decide (x = k))
    (by rw [List.length_map, rollingMean5_length]; exact hlen)]
  rw [rollingMean5_length]
  apply List.map_congr_left
  intro u hu
  have hu' : u < values.length := List.mem_range.mp (List.mem_filter.mp hu).1
  exact rollingMean5_getD values hu'

/-- C6: the `anomalies` worker subtracts, from each daily value, the
climatology of that timestep's month-day — the mean over all years of the
5-day centred rolling mean (min_periods = 1) of the daily series — and the
returned array carries the same time coordinates as the input. -/
theorem claim_C6 {D K : Type _} [DecidableEq K] [Inhabited K] (key : D → K)
    (dates : List D) (values : List ℚ) (hlen : dates.length = values.length) :
    (anomalies key dates values).1 = dates ∧
    (anomalies key dates values).2.length = values.length ∧
    ∀ (t : Nat) (ht : t < values.length) (ht2 : t < dates.length),
      (anomalies key dates values).2.getD t 0 =
        values.get ⟨t, ht⟩ -
          claimClimatology key dates values (key (dates.get ⟨t, ht2⟩)) := by
  refine ⟨rfl, ?_, ?_⟩
  · rw [anomalies]
    simp [hlen]
  · intro t ht ht2
    have hlz : t < ((dates.map key).zip values).length := by
      rw [List.length_zip, List.length_map]
      omega
    have hmaplen : t < (((dates.map key).zip values).map
        (fun q : K × ℚ =>
          q.2 - climGroupMean (dates.map key) (rollingMean5 values) q.1)).length := by
      rw [List.length_map]
      exact hlz
    rw [anomalies]
    show (((dates.map key).zip values).map
      (fun p => p.2 - climGroupMean (dates.map key) (rollingMean5 values) p.1)).getD t 0 = _
    rw [List.getD_eq_getElem _ _ hmaplen, List.getElem_map, List.getElem_zip,
      List.getElem_map]
    rw [climGroupMean_eq_claim key dates values hlen]
    rfl

/-- C6 witness: the anomaly of the middle timestep of a concrete 3-day
series with month-day keys `d % 2`. -/
theorem claim_C6_witness :
    (anomalies (fun d : Nat => d % 2) [10, 11, 12] [4, 8, 6]).2.getD 1 0 =
      8 - claimClimatology (fun d : Nat => d % 2) [10, 11, 12] [4, 8, 6] 1 := by
  have h := (claim_C6 (fun d : Nat => d % 2) [10, 11, 12] [4, 8, 6]
    (by decide)).2.2 1 (by decide) (by decide)
  simpa using h

/-! ## C7: date chunks of the precipitation download -/

/-- `itertools.groupby(dates_generated_all, lambda x: x[:6])`: split a list
into maximal consecutive runs of equal key (year-month prefix). -/
def chunkBy {α κ : Type _} [DecidableEq κ] (key : α → κ) : List α → List (List α)
  | [] => []
  | [x] => [[x]]
  | x :: y :: xs =>
    match chunkBy key (y :: xs) with
    | [] => [[x]]
    | c :: cs => if key x = key y then (x :: c) :: cs else [x] :: c :: cs

/-- Python `l[-1:]`: the last element as a one-element list (empty list for
an empty input). -/
def lastSlice {α : Type _} (l : List α) : List α :=
  match l.getLast? with
  | some x => [x]
  | none => []

/-- `dates_precipit`: each year-month chunk extended by the last date of
the previous chunk (`dates_atm_vars[i][-1:] + dates_atm_vars[i+1]`), with
the unextended first chunk inserted in front. -/
def dates_precipit {α : Type _} (chunks : List (List α)) : List (List α) :=
  (chunks.headD []) ::
    (List.range (chunks.length - 1)).map
      (fun i => lastSlice (chunks.getD i []) ++ chunks.getD (i + 1) [])

/-- The dates stamped onto the daily fields `precip_subset` emits for one
chunk: the loop runs `i_day in range(len(dates_subset) - 1)` and stamps the
accumulated field with `dates_subset[i_day + 1]`. -/
def precipEmittedDates {α : Type _} [Inhabited α] (dates_subset : List α) :
    List α :=
  (List.range (dates_subset.length - 1)).map
    (fun i => dates_subset.getD (i + 1) default)

theorem chunkBy_join {α κ : Type _} [DecidableEq κ] (key : α → κ)
    (l : List α) : (chunkBy key l).join = l := by
  induction l with
  | nil => rfl
  | cons x xs ih =>
    cases xs with
    | nil => rfl
    | cons y ys =>
      cases hc : chunkBy key (y :: ys) with
      | nil =>
        rw [hc] at ih
        simp at ih
      | cons c cs =>
        rw [hc] at ih
        have hstep : chunkBy key (x :: y :: ys) =
            if key x = key y then (x :: c) :: cs else [x] :: c :: cs := by
          rw [chunkBy, hc]
        rw [hstep]
        by_cases hk : key x = key y
        · rw [if_pos hk]
          simpa using ih
        · rw [if_neg hk]
          simpa using ih

theorem chunkBy_ne_nil {α κ : Type _} [DecidableEq κ] (key : α → κ)
    (l : List α) : ∀ c ∈ chunkBy key l, c ≠ [] := by
  induction l with
  | nil => intro c hc; simp [chunkBy] at hc
  | cons x xs ih =>
    cases xs with
    | nil =>
      intro c hc
      rw [chunkBy] at hc
      simp at hc
      simp [hc]
    | cons y ys =>
      intro c hc
      cases hcb : chunkBy key (y :: ys) with
      | nil =>
        rw [chunkBy, hcb] at hc
        simp at hc
        simp [hc]
      | cons c0 cs =>
        have hstep : chunkBy key (x :: y :: ys) =
            if key x = key y then (x :: c0) :: cs else [x] :: c0 :: cs := by
          rw [chunkBy, hcb]
        rw [hstep] at hc
        by_cases hk : key x = key y
        · rw [if_pos hk] at hc
          rcases List.mem_cons.mp hc with h1 | h1
          · simp [h1]
          · exact ih c (by rw [hcb]; exact List.mem_cons_of_mem _ h1)
        · rw [if_neg hk] at hc
          rcases List.mem_cons.mp hc with h1 | h1
          · simp [h1]
          · exact ih c (by rw [hcb]; exact h1)

theorem precipEmittedDates_eq_drop {α : Type _} [Inhabited α] (c : List α) :
    precipEmittedDates c = c.drop 1 := by
  apply List.ext_getElem
  · simp only [precipEmittedDates, List.length_map, List.length_range,
      List.length_drop]
  · intro i h1 h2
    have hi : i + 1 < c.length := by
      rw [List.length_drop] at h2
      omega
    simp only [precipEmittedDates, List.getElem_map, List.getElem_range,
      List.getElem_drop]
    rw [List.getD_eq_getElem _ _ hi]
    congr 1
    omega

/-- The recursive form of the extended chunks. -/
def extendChunks {α : Type _} : List (List α) → List (List α)
  | [] => []
  | [_] => []
  | a :: b :: rest => (lastSlice a ++ b) :: extendChunks (b :: rest)

theorem dates_precipit_eq {α : Type _} (chunks : List (List α)) :
    dates_precipit chunks = chunks.headD [] :: extendChunks chunks := by
  rw [dates_precipit]
  congr 1
  induction chunks with
  | nil => rfl
  | cons a rest ih =>
    cases rest with
    | nil => rfl
    | cons b rest2 =>
      have hlen : (a :: b :: rest2).length - 1 = rest2.length + 1 := by
        simp
      rw [hlen, List.range_succ_eq_map, List.map_cons, List.map_map]
      have hhead : lastSlice ((a :: b :: rest2).getD 0 []) ++
          (a :: b :: rest2).getD (0 + 1) [] = lastSlice a ++ b := rfl
      rw [hhead]
      have htail : (List.range rest2.length).map
          ((fun i => lastSlice ((a :: b :: rest2).getD i []) ++
            (a :: b :: rest2).getD (i + 1) []) ∘ Nat.succ) =
          (List.range ((b :: rest2).length - 1)).map
            (fun i => lastSlice ((b :: rest2).getD i []) ++
              (b :: rest2).getD (i + 1) []) := by
        have hlen2 : (b :: rest2).length - 1 = rest2.length := by simp
        rw [hlen2]
        exact List.map_congr_left (fun i _ => rfl)
      rw [htail, ih]
      rfl

theorem extendChunks_emitted {α : Type _} (chunks : List (List α))
    (hne : ∀ c ∈ chunks, c ≠ []) :
    ((extendChunks chunks).map (fun c => c.drop 1)).join =
      (chunks.drop 1).join := by
  induction chunks with
  | nil => rfl
  | cons a rest ih =>
    cases rest with
    | nil => rfl
    | cons b rest2 =>
      rw [extendChunks, List.map_cons]
      show ((lastSlice a ++ b).drop 1) ++
        ((extendChunks (b :: rest2)).map (fun c => c.drop 1)).join =
          ((a :: b :: rest2).drop 1).join
      have ha : a ≠ [] := hne a (List.mem_cons_self _ _)
      have hdrop : (lastSlice a ++ b).drop 1 = b := by
        rcases List.exists_cons_of_ne_nil ha with ⟨x, xs, hx⟩
        have : lastSlice a = [a.getLast ha] := by
          rw [lastSlice, List.getLast?_eq_getLast a ha]
        rw [this]
        rfl
      rw [hdrop, ih (fun c hc => hne c (List.mem_cons_of_mem _ hc))]
      rfl

/-- C7: the precipitation date chunks are the year-month chunks extended by
one day of overlap: chunk 0 is unextended, chunk `i ≥ 1` is the last date
of chunk `i-1` prepended to year-month chunk `i`; `precip_subset` emits one
daily field per date of its chunk except the chunk's first date; hence
across all chunks every date of the full requested range except the very
first is emitted exactly once, in order. -/
theorem claim_C7 {α κ : Type _} [DecidableEq κ] [Inhabited α] (key : α → κ)
    (full : List α) (hfull : full ≠ []) :
    (dates_precipit (chunkBy key full)).getD 0 [] =
        (chunkBy key full).getD 0 [] ∧
    (∀ i, 1 ≤ i → i < (chunkBy key full).length →
      (dates_precipit (chunkBy key full)).getD i [] =
        lastSlice ((chunkBy key full).getD (i - 1) []) ++
          (chunkBy key full).getD i []) ∧
    (∀ c : List α, precipEmittedDates c = c.drop 1) ∧
    ((dates_precipit (chunkBy key full)).map
      (fun c => precipEmittedDates c)).join = full.drop 1 := by
  have hne := chunkBy_ne_nil key full
  have hjoin := chunkBy_join key full
  refine ⟨?_, ?_, precipEmittedDates_eq_drop, ?_⟩
  · rw [dates_precipit]
    show (chunkBy key full).headD [] = _
    cases chunkBy key full with
    | nil => rfl
    | cons c0 cs => rfl
  · intro i h1 h2
    obtain ⟨j, rfl⟩ : ∃ j, i = j + 1 := ⟨i - 1, by omega⟩
    have hj : j < (chunkBy key full).length - 1 := by omega
    rw [dates_precipit, List.getD_cons_succ,
      List.getD_eq_getElem _ _ (by simpa using hj), List.getElem_map,
      List.getElem_range]
    have : j + 1 - 1 = j := by omega
    rw [this]
  · rw [List.map_congr_left (fun c _ => precipEmittedDates_eq_drop c)]
    cases hC : chunkBy key full with
    | nil =>
      rw [hC] at hjoin
      simp at hjoin
      exact absurd hjoin hfull
    | cons c0 cs =>
      rw [hC] at hne hjoin
      rw [dates_precipit_eq, List.map_cons]
      show ((c0 :: cs).headD []).drop 1 ++
        ((extendChunks (c0 :: cs)).map (fun c => c.drop 1)).join = full.drop 1
      rw [extendChunks_emitted (c0 :: cs) hne]
      have hc0 : c0 ≠ [] := hne c0 (List.mem_cons_self _ _)
      rcases List.exists_cons_of_ne_nil hc0 with ⟨x, c0t, hx⟩
      subst hx
      rw [← hjoin]
      rfl

/-- C7 witness: three year-month groups (key = tens digit) of a concrete
date list; every date but the first is emitted exactly once, in order. -/
theorem claim_C7_witness :
    ((dates_precipit (chunkBy (fun d : Nat => d / 10) [11, 12, 21, 22, 31])).map
      (fun c => precipEmittedDates c)).join = [12, 21, 22, 31] := by
  have h := (claim_C7 (fun d : Nat => d / 10) [11, 12, 21, 22, 31]
    (by decide)).2.2.2
  simpa using h
